import Mathlib

/-!
Verification of the ecc repository: a prime-field arithmetic layer, an
elliptic-curve group layer over short Weierstrass curves, and an ECDSA
protocol layer.  The definitions below are a shallow embedding of the Rust
sources (src/lib.rs and src/ecdsa.rs).  BigUint values become Nat; Rust
assertion failures and panics become the value none of an Option result.
-/

namespace Ecc

/-- A curve point: an affine coordinate pair or the point at infinity.
Mirrors the Rust enum Point with variants Coordinate(BigUint, BigUint)
and Identity. -/
inductive Point where
  | coordinate (x y : Nat)
  | identity
deriving DecidableEq

/-- A short Weierstrass curve y^2 = x^3 + a*x + b over F_p.
Mirrors the Rust struct EllipticCurve. -/
structure EllipticCurve where
  a : Nat
  b : Nat
  p : Nat
deriving DecidableEq

namespace FiniteField

/-- FiniteField::add from src/lib.rs: (c + d) mod p. -/
def add (c d p : Nat) : Nat := (c + d) % p

/-- FiniteField::mult from src/lib.rs: (c * d) mod p. -/
def mult (c d p : Nat) : Nat := (c * d) % p

/-- FiniteField::inv_addition from src/lib.rs: asserts c < p (callers inside
the library always pass reduced values) and returns p - c. -/
def inv_addition (c p : Nat) : Nat := p - c

/-- FiniteField::inv_multiplication from src/lib.rs: c ^ (p - 2) mod p,
the Fermat inverse for prime p. -/
def inv_multiplication (c p : Nat) : Nat := c ^ (p - 2) % p

/-- FiniteField::subtract from src/lib.rs: add of c and the additive
inverse of d. -/
def subtract (c d p : Nat) : Nat := add c (inv_addition d p) p

/-- FiniteField::divide from src/lib.rs: mult of c and the Fermat inverse
of d. -/
def divide (c d p : Nat) : Nat := mult c (inv_multiplication d p) p

end FiniteField

namespace EllipticCurve

/-- EllipticCurve::is_on_curve from src/lib.rs: Identity is on the curve,
and a coordinate pair is on the curve iff y^2 = x^3 + a*x + b in F_p. -/
def is_on_curve (ec : EllipticCurve) (c : Point) : Bool :=
  match c with
  | Point.coordinate x y =>
      let y2 := y ^ 2 % ec.p
      let x3 := x ^ 3 % ec.p
      let ax := FiniteField.mult ec.a x ec.p
      let x3plusax := FiniteField.add x3 ax ec.p
      let x3plusaxplusb := FiniteField.add x3plusax ec.b ec.p
      y2 == x3plusaxplusb
  | Point.identity => true

/-- EllipticCurve::compute_x3_y3 from src/lib.rs: the chord-tangent
coordinates x3 = s^2 - x1 - x2 and y3 = s * (x1 - x3) - y1 in F_p. -/
def compute_x3_y3 (ec : EllipticCurve) (s x1 y1 x2 : Nat) : Point :=
  let s2 := s ^ 2 % ec.p
  let s2minusx1 := FiniteField.subtract s2 x1 ec.p
  let x3 := FiniteField.subtract s2minusx1 x2 ec.p
  let x1minusx3 := FiniteField.subtract x1 x3 ec.p
  let sx1minusx3 := FiniteField.mult s x1minusx3 ec.p
  let y3 := FiniteField.subtract sx1minusx3 y1 ec.p
  Point.coordinate x3 y3

/-- EllipticCurve::add from src/lib.rs.  The three Rust assertions (the
points are different, both points are on the curve) become none on
violation.  Identity is the neutral element, reflections give Identity,
and otherwise the chord construction applies. -/
def add (ec : EllipticCurve) (c d : Point) : Option Point :=
  if c = d then none
  else if !(ec.is_on_curve c) then none
  else if !(ec.is_on_curve d) then none
  else
    match c, d with
    | Point.identity, _ => some d
    | _, Point.identity => some c
    | Point.coordinate x1 y1, Point.coordinate x2 y2 =>
        if x1 = x2 ∧ FiniteField.add y1 y2 ec.p = 0 then
          some Point.identity
        else
          let numerator := FiniteField.subtract y2 y1 ec.p
          let denominator := FiniteField.subtract x2 x1 ec.p
          let s := FiniteField.divide numerator denominator ec.p
          some (ec.compute_x3_y3 s x1 y1 x2)

/-- EllipticCurve::doubling from src/lib.rs.  The on-curve assertion
becomes none on violation; a point with y = 0 doubles to Identity, and
otherwise the tangent construction applies with
s = (3 * x1^2 + a) / (2 * y1). -/
def doubling (ec : EllipticCurve) (c : Point) : Option Point :=
  if !(ec.is_on_curve c) then none
  else
    match c with
    | Point.identity => some Point.identity
    | Point.coordinate x1 y1 =>
        if y1 = 0 then some Point.identity
        else
          let numerator := x1 ^ 2 % ec.p
          let numerator := FiniteField.mult 3 numerator ec.p
          let numerator := FiniteField.add numerator ec.a ec.p
          let denominator := FiniteField.mult 2 y1 ec.p
          let s := FiniteField.divide numerator denominator ec.p
          some (ec.compute_x3_y3 s x1 y1 x1)

/-- Fuel-driven helper for the bit length: for n at most fuel it counts
the binary digits of n. -/
def bitsFuel : Nat → Nat → Nat
  | 0, _ => 0
  | fuel + 1, n => if n = 0 then 0 else bitsFuel fuel (n / 2) + 1

/-- Bit length of a natural number, as BigUint::bits in Rust (an external
big-integer operation): 0 for 0, otherwise one more than the index of the
highest set bit. -/
def bits (d : Nat) : Nat := bitsFuel d d

/-- Bit test, as BigUint::bit in Rust (an external big-integer
operation): bit i of d. -/
def bit (d i : Nat) : Bool := d / 2 ^ i % 2 == 1

/-- The double-and-add loop of EllipticCurve::scalar_mul from src/lib.rs,
running over bit indices n-1 down to 0 of the scalar d: double the
accumulator, and when the bit is set add the base point c.  Any assertion
failure inside doubling or add propagates as none. -/
def scalar_mul_loop (ec : EllipticCurve) (d : Nat) (c : Point) :
    Nat → Point → Option Point
  | 0, a => some a
  | n + 1, a =>
      match ec.doubling a with
      | none => none
      | some a2 =>
          if bit d n then
            match ec.add a2 c with
            | none => none
            | some a3 => scalar_mul_loop ec d c n a3
          else
            scalar_mul_loop ec d c n a2

/-- EllipticCurve::scalar_mul from src/lib.rs: MSB-to-LSB double-and-add
starting from the base point, iterating over bit indices bits(d) - 2 down
to 0.  For d = 0 the Rust loop bound underflows and the call aborts, so
the embedding returns none. -/
def scalar_mul (ec : EllipticCurve) (c : Point) (d : Nat) : Option Point :=
  if d = 0 then none
  else scalar_mul_loop ec d c (bits d - 1) c

/-- Modelled from the spec: the double-and-add loop of scalar_mul of the
external ec_generic crate used by src/ecdsa.rs, whose source is not part
of this repository.  Spec section 4.2 requires the loop to detect an
accumulator equal to the base point and substitute doubling for the add
(the case of an accumulator equal to the reflection of the base point is
returned as Infinity by the vertical-line case of add). -/
def spec_scalar_mul_loop (ec : EllipticCurve) (d : Nat) (c : Point) :
    Nat → Point → Option Point
  | 0, a => some a
  | n + 1, a =>
      match ec.doubling a with
      | none => none
      | some a2 =>
          if bit d n then
            match (if a2 = c then ec.doubling c else ec.add a2 c) with
            | none => none
            | some a3 => spec_scalar_mul_loop ec d c n a3
          else
            spec_scalar_mul_loop ec d c n a2

/-- Modelled from the spec: scalar_mul of the external ec_generic crate
used by src/ecdsa.rs, whose source is not part of this repository.  Spec
section 4.2: precondition that the base point is on the curve, scalar 0
returns Infinity, and otherwise MSB-to-LSB double-and-add with the
equal-point detection. -/
def spec_scalar_mul (ec : EllipticCurve) (c : Point) (d : Nat) :
    Option Point :=
  if !(ec.is_on_curve c) then none
  else if d = 0 then some Point.identity
  else spec_scalar_mul_loop ec d c (bits d - 1) c

end EllipticCurve

/-- The ECDSA context from src/ecdsa.rs: a curve, a generator point and
the order of the group generated by it. -/
structure ECDSA where
  ec : EllipticCurve
  a_gen : Point
  q_order : Nat

namespace ECDSA

/-- ECDSA::generate_pub_key from src/ecdsa.rs: the public key is the
scalar multiple of the generator by the private key (through the
ec_generic scalar_mul, modelled from the spec). -/
def generate_pub_key (E : ECDSA) (priv_key : Nat) : Option Point :=
  EllipticCurve.spec_scalar_mul E.ec E.a_gen priv_key

/-- ECDSA::sign from src/ecdsa.rs, with the sampled nonce k made an
explicit argument.  Asserts hash < q and priv_key < q, computes
R = k * G, takes r as the x-coordinate of R unreduced, and returns
(r, (hash + priv_key * r) * k^-1 mod q).  When R is Infinity the Rust
code panics, hence none. -/
def sign (E : ECDSA) (priv_key hash k : Nat) : Option (Nat × Nat) :=
  if !(hash < E.q_order) then none
  else if !(priv_key < E.q_order) then none
  else
    match EllipticCurve.spec_scalar_mul E.ec E.a_gen k with
    | none => none
    | some Point.identity => none
    | some (Point.coordinate r _) =>
        let dr := FiniteField.mult priv_key r E.q_order
        let hash_plus_dr := FiniteField.add hash dr E.q_order
        let k_inv := FiniteField.inv_multiplication k E.q_order
        let s := FiniteField.mult hash_plus_dr k_inv E.q_order
        some (r, s)

/-- ECDSA::verify from src/ecdsa.rs.  Asserts hash < q, computes
u1 = s^-1 * hash and u2 = s^-1 * r mod q, forms P = u1 * G + u2 * Q
(through the ec_generic operations, modelled from the spec), and returns
whether P is a coordinate point whose x-coordinate equals r.  There is no
range check on r or s. -/
def verify (E : ECDSA) (hash : Nat) (signature : Nat × Nat)
    (pub_key : Point) : Option Bool :=
  if !(hash < E.q_order) then none
  else
    let r := signature.1
    let s := signature.2
    let s_inv := FiniteField.inv_multiplication s E.q_order
    let u1 := FiniteField.mult s_inv hash E.q_order
    let u2 := FiniteField.mult s_inv r E.q_order
    match EllipticCurve.spec_scalar_mul E.ec E.a_gen u1,
        EllipticCurve.spec_scalar_mul E.ec pub_key u2 with
    | some u1a, some u1b =>
        match EllipticCurve.add E.ec u1a u1b with
        | none => none
        | some (Point.coordinate xp _) => some (xp == r)
        | some Point.identity => some false
    | _, _ => none

/-- ECDSA::generate_hash_less_than from src/ecdsa.rs, with the SHA-256
digest (an external collaborator of the core) already interpreted as a
big-endian integer: the digest is reduced modulo max - 1. -/
def generate_hash_less_than (digest max : Nat) : Nat :=
  digest % (max - 1)

end ECDSA

/-- The toy curve y^2 = x^3 + 2x + 2 over F_17 used throughout the tests
of the repository. -/
def toyCurve : EllipticCurve := { a := 2, b := 2, p := 17 }

/-- The toy ECDSA context of the tests: the toy curve with generator
(5, 1) of group order 19. -/
def toyEcdsa : ECDSA :=
  { ec := toyCurve, a_gen := Point.coordinate 5 1, q_order := 19 }

/-- The SHA-256 digest of the message used by the tests of the
repository, interpreted as a big-endian integer.  SHA-256 itself is an
external collaborator of the core. -/
def helloWorldDigest : Nat :=
  0x7f83b1657ff1fc53b92dc18148a1d65dfc2d4b1fa3d677284addd200126d9069

end Ecc


namespace Ecc

/-- Both coordinates of an affine point are strictly below the modulus;
Infinity is reduced by convention.  This is the canonical-form invariant
of the Point data model. -/
def reduced (p : Nat) : Point → Bool
  | Point.coordinate x y => decide (x < p) && decide (y < p)
  | Point.identity => true

section ZModBridge

variable {p : Nat}

lemma cast_ff_add (c d : Nat) :
    ((FiniteField.add c d p : Nat) : ZMod p) = (c : ZMod p) + (d : ZMod p) := by
  unfold FiniteField.add
  rw [ZMod.natCast_mod]
  push_cast
  ring

lemma cast_ff_mult (c d : Nat) :
    ((FiniteField.mult c d p : Nat) : ZMod p) = (c : ZMod p) * (d : ZMod p) := by
  unfold FiniteField.mult
  rw [ZMod.natCast_mod]
  push_cast
  ring

lemma cast_ff_subtract (c d : Nat) (hd : d ≤ p) :
    ((FiniteField.subtract c d p : Nat) : ZMod p) = (c : ZMod p) - (d : ZMod p) := by
  unfold FiniteField.subtract FiniteField.inv_addition
  rw [cast_ff_add, Nat.cast_sub hd, ZMod.natCast_self]
  ring

lemma cast_ff_inv_mult (c : Nat) :
    ((FiniteField.inv_multiplication c p : Nat) : ZMod p) = (c : ZMod p) ^ (p - 2) := by
  unfold FiniteField.inv_multiplication
  rw [ZMod.natCast_mod]
  push_cast
  ring

lemma cast_pow_mod (x k : Nat) :
    ((x ^ k % p : Nat) : ZMod p) = (x : ZMod p) ^ k := by
  rw [ZMod.natCast_mod]
  push_cast
  ring

lemma pow_card_sub_two (hp : p.Prime) {a : ZMod p} (ha : a ≠ 0) :
    a ^ (p - 2) = a⁻¹ := by
  haveI := Fact.mk hp
  have h1 : a ^ (p - 2) * a = 1 := by
    rw [← pow_succ]
    have h2 : p - 2 + 1 = p - 1 := by
      have := hp.two_le
      omega
    rw [h2]
    exact ZMod.pow_card_sub_one_eq_one ha
  calc a ^ (p - 2) = a ^ (p - 2) * a * a⁻¹ := by
        field_simp
    _ = a⁻¹ := by rw [h1, one_mul]

end ZModBridge

/-- C6: for every prime p and every c with 1 ≤ c < p, multiplying c by
its Fermat inverse c ^ (p - 2) mod p gives 1. -/
theorem mult_inv_multiplication_eq_one (p c : Nat) (hp : Nat.Prime p)
    (h1 : 1 ≤ c) (h2 : c < p) :
    FiniteField.mult c (FiniteField.inv_multiplication c p) p = 1 := by
  haveI := Fact.mk hp
  have hc : (c : ZMod p) ≠ 0 := by
    rw [Ne, ZMod.natCast_zmod_eq_zero_iff_dvd]
    intro hdvd
    have := Nat.le_of_dvd (by omega) hdvd
    omega
  have key : ((FiniteField.mult c (FiniteField.inv_multiplication c p) p : Nat) : ZMod p)
      = ((1 : Nat) : ZMod p) := by
    rw [cast_ff_mult, cast_ff_inv_mult, Nat.cast_one, pow_card_sub_two hp hc]
    exact mul_inv_cancel₀ hc
  have hmod := (ZMod.natCast_eq_natCast_iff' _ _ _).mp key
  have hlt : FiniteField.mult c (FiniteField.inv_multiplication c p) p < p :=
    Nat.mod_lt _ (by have := hp.two_le; omega)
  rwa [Nat.mod_eq_of_lt hlt, Nat.mod_eq_of_lt hp.one_lt] at hmod

/-- Witness for C6 at p = 7, c = 4. -/
theorem mult_inv_multiplication_eq_one_witness :
    (Nat.Prime 7 ∧ 1 ≤ 4 ∧ 4 < 7)
      ∧ FiniteField.mult 4 (FiniteField.inv_multiplication 4 7) 7 = 1 :=
  ⟨⟨by decide, by decide, by decide⟩,
    mult_inv_multiplication_eq_one 7 4 (by decide) (by decide) (by decide)⟩

end Ecc

-- probe
open Ecc in
example : EllipticCurve.scalar_mul toyCurve (Point.coordinate 5 1) 19 = some Point.identity := by decide


namespace Ecc

/-- The curve y^2 = x^3 + x + 1 over F_2, a curve with prime modulus on
which the tangent construction of doubling leaves the curve. -/
def char2Curve : EllipticCurve := { a := 1, b := 1, p := 2 }

/-- C7 counterexample: over the prime modulus p = 2 the point (0, 1) lies
on the curve y^2 = x^3 + x + 1 and is reduced, yet doubling returns the
point (1, 0), which is not on the curve. -/
theorem doubling_not_closed_char2 :
    Nat.Prime char2Curve.p
      ∧ reduced char2Curve.p (Point.coordinate 0 1) = true
      ∧ char2Curve.is_on_curve (Point.coordinate 0 1) = true
      ∧ char2Curve.doubling (Point.coordinate 0 1) = some (Point.coordinate 1 0)
      ∧ char2Curve.is_on_curve (Point.coordinate 1 0) = false := by
  decide

/-- C5 counterexample: for the prime p = 7 and c = 0 the additive inverse
helper returns p itself, not 0. -/
theorem inv_addition_zero_counterexample :
    Nat.Prime 7 ∧ (0 : Nat) < 7 ∧ FiniteField.inv_addition 0 7 = 7 := by
  decide

/-- C5 amended: for every c with 0 ≤ c < p, inv_addition returns p - c;
for c at least 1 the result lies in [1, p), while for c = 0 the result is
p itself, outside [0, p). -/
theorem inv_addition_spec (p c : Nat) (h : c < p) :
    FiniteField.inv_addition c p = p - c
      ∧ (1 ≤ c → 1 ≤ FiniteField.inv_addition c p ∧ FiniteField.inv_addition c p < p)
      ∧ (c = 0 → FiniteField.inv_addition c p = p) := by
  unfold FiniteField.inv_addition
  refine ⟨rfl, fun h1 => ⟨by omega, by omega⟩, fun h0 => by omega⟩

/-- Witness for the amended C5 at p = 7, c = 4. -/
theorem inv_addition_spec_witness :
    (4 < 7)
      ∧ (FiniteField.inv_addition 4 7 = 7 - 4
          ∧ (1 ≤ 4 → 1 ≤ FiniteField.inv_addition 4 7 ∧ FiniteField.inv_addition 4 7 < 7)
          ∧ (4 = 0 → FiniteField.inv_addition 4 7 = 7)) :=
  ⟨by decide, inv_addition_spec 7 4 (by decide)⟩

/-- C9: the hash helper reduces the big-endian SHA-256 digest modulo
max - 1, so for max at least 2 the result lies in [0, max - 1). -/
theorem generate_hash_less_than_spec (digest max : Nat) (h : 2 ≤ max) :
    ECDSA.generate_hash_less_than digest max = digest % (max - 1)
      ∧ ECDSA.generate_hash_less_than digest max < max - 1 :=
  ⟨rfl, Nat.mod_lt _ (by omega)⟩

/-- Witness for C9 at the digest of the test message and max = 19. -/
theorem generate_hash_less_than_spec_witness :
    (2 ≤ 19)
      ∧ (ECDSA.generate_hash_less_than helloWorldDigest 19 = helloWorldDigest % (19 - 1)
          ∧ ECDSA.generate_hash_less_than helloWorldDigest 19 < 19 - 1) :=
  ⟨by decide, generate_hash_less_than_spec helloWorldDigest 19 (by decide)⟩

/-- C2 failing input: on the toy curve with base point P = (5, 1) of
order 19 and scalar k = 21, the double-and-add loop reaches an
accumulator equal to P (20 P = P) with the last bit of k set, calls add
on two equal points, and the distinct-points assertion aborts the whole
scalar multiplication; adding P to itself aborts likewise. -/
theorem scalar_mul_21_aborts :
    toyCurve.is_on_curve (Point.coordinate 5 1) = true
      ∧ (1 : Nat) ≤ 21
      ∧ toyCurve.add (Point.coordinate 5 1) (Point.coordinate 5 1) = none
      ∧ toyCurve.scalar_mul (Point.coordinate 5 1) 21 = none := by
  decide

/-- C8: the stated multiples of the generator (5, 1) on the toy curve,
including the scalar-order property at q = 19. -/
theorem scalar_mul_toy_values :
    toyCurve.scalar_mul (Point.coordinate 5 1) 16 = some (Point.coordinate 10 11)
      ∧ toyCurve.scalar_mul (Point.coordinate 5 1) 17 = some (Point.coordinate 6 14)
      ∧ toyCurve.scalar_mul (Point.coordinate 5 1) 18 = some (Point.coordinate 5 16)
      ∧ toyCurve.scalar_mul (Point.coordinate 5 1) 19 = some Point.identity := by
  decide

/-- C4 failing input: with private key 7, hash 3 and nonce 1 on the toy
context, sign returns the pair (5, 0): the s component is 0, outside
[1, 19), and no internal restart happens. -/
theorem sign_returns_zero_s :
    ((1 : Nat) ≤ 7 ∧ 7 < toyEcdsa.q_order)
      ∧ (3 : Nat) < toyEcdsa.q_order
      ∧ ((1 : Nat) ≤ 1 ∧ 1 < toyEcdsa.q_order)
      ∧ ECDSA.sign toyEcdsa 7 3 1 = some (5, 0) := by
  decide

/-- C3 failing input: on the toy context with public key 7 G = (0, 6),
the hash 1 admits the valid signature (5, 17); the out-of-range pair
(5, 36) with 36 outside [1, 19) is nevertheless accepted by verify. -/
theorem verify_accepts_out_of_range_s :
    toyCurve.is_on_curve (Point.coordinate 0 6) = true
      ∧ ECDSA.generate_pub_key toyEcdsa 7 = some (Point.coordinate 0 6)
      ∧ ¬ ((1 : Nat) ≤ 36 ∧ 36 < toyEcdsa.q_order)
      ∧ ECDSA.verify toyEcdsa 1 (5, 36) (Point.coordinate 0 6) = some true := by
  decide

/-- C1 failing input: the toy context is a valid ECDSA context (the
generator lies on the curve and has order 19), the test message digest
reduces to the hash 17, and with private key 8 and nonce 1 sign produces
the degenerate signature (5, 0), which verify then rejects by aborting
inside add rather than returning true. -/
theorem sign_verify_roundtrip_fails :
    toyCurve.is_on_curve (Point.coordinate 5 1) = true
      ∧ EllipticCurve.spec_scalar_mul toyCurve (Point.coordinate 5 1) 19 = some Point.identity
      ∧ ECDSA.generate_hash_less_than helloWorldDigest toyEcdsa.q_order = 17
      ∧ ((1 : Nat) ≤ 8 ∧ 8 < toyEcdsa.q_order)
      ∧ ((1 : Nat) ≤ 1 ∧ 1 < toyEcdsa.q_order)
      ∧ ECDSA.generate_pub_key toyEcdsa 8 = some (Point.coordinate 13 7)
      ∧ ECDSA.sign toyEcdsa 8 17 1 = some (5, 0)
      ∧ ECDSA.verify toyEcdsa 17 (5, 0) (Point.coordinate 13 7) = none := by
  decide

end Ecc


namespace Ecc

lemma compute_x3_y3_reduced (ec : EllipticCurve) (hp : 0 < ec.p) (s x1 y1 x2 : Nat) :
    reduced ec.p (ec.compute_x3_y3 s x1 y1 x2) = true := by
  simp only [EllipticCurve.compute_x3_y3, reduced, Bool.and_eq_true, decide_eq_true_eq]
  exact ⟨Nat.mod_lt _ hp, Nat.mod_lt _ hp⟩

lemma add_reduced (ec : EllipticCurve) (hp : 0 < ec.p) {c d r : Point}
    (hc : reduced ec.p c = true) (hd : reduced ec.p d = true)
    (h : ec.add c d = some r) : reduced ec.p r = true := by
  by_cases hcd : c = d
  · unfold EllipticCurve.add at h
    rw [if_pos hcd] at h
    exact Option.noConfusion h
  unfold EllipticCurve.add at h
  rw [if_neg hcd] at h
  split at h
  · exact Option.noConfusion h
  split at h
  · exact Option.noConfusion h
  cases c with
  | identity =>
      cases d with
      | identity => exact absurd rfl hcd
      | coordinate x2 y2 =>
          dsimp only at h
          injection h with h2
          subst h2
          exact hd
  | coordinate x1 y1 =>
      cases d with
      | identity =>
          dsimp only at h
          injection h with h2
          subst h2
          exact hc
      | coordinate x2 y2 =>
          dsimp only at h
          split at h
          · injection h with h2
            subst h2
            rfl
          · injection h with h2
            subst h2
            exact compute_x3_y3_reduced ec hp _ _ _ _

lemma doubling_reduced (ec : EllipticCurve) (hp : 0 < ec.p) {c r : Point}
    (h : ec.doubling c = some r) : reduced ec.p r = true := by
  unfold EllipticCurve.doubling at h
  split at h
  · exact Option.noConfusion h
  cases c with
  | identity =>
      dsimp only at h
      injection h with h2
      subst h2
      rfl
  | coordinate x1 y1 =>
      dsimp only at h
      split at h
      · injection h with h2
        subst h2
        rfl
      · injection h with h2
        subst h2
        exact compute_x3_y3_reduced ec hp _ _ _ _

lemma scalar_mul_loop_reduced (ec : EllipticCurve) (hp : 0 < ec.p) (d : Nat)
    {c : Point} (hc : reduced ec.p c = true) :
    ∀ (n : Nat) {a r : Point}, reduced ec.p a = true →
      EllipticCurve.scalar_mul_loop ec d c n a = some r → reduced ec.p r = true := by
  intro n
  induction n with
  | zero =>
      intro a r ha h
      unfold EllipticCurve.scalar_mul_loop at h
      injection h with h2
      subst h2
      exact ha
  | succ n ih =>
      intro a r ha h
      unfold EllipticCurve.scalar_mul_loop at h
      cases hdbl : ec.doubling a with
      | none =>
          rw [hdbl] at h
          exact Option.noConfusion h
      | some a2 =>
          rw [hdbl] at h
          dsimp only at h
          have ha2 := doubling_reduced ec hp hdbl
          split at h
          · cases hadd : ec.add a2 c with
            | none =>
                rw [hadd] at h
                exact Option.noConfusion h
            | some a3 =>
                rw [hadd] at h
                dsimp only at h
                exact ih (add_reduced ec hp ha2 hc hadd) h
          · exact ih ha2 h

/-- C10: on every curve with positive modulus, every affine point that
add, doubling or scalar_mul returns from reduced inputs has both
coordinates strictly below the modulus, so Point values stay in
canonical form. -/
theorem returned_points_reduced (ec : EllipticCurve) (hp : 1 ≤ ec.p)
    (P Q : Point) (hP : reduced ec.p P = true) (hQ : reduced ec.p Q = true) :
    (∀ R, ec.add P Q = some R → reduced ec.p R = true)
      ∧ (∀ R, ec.doubling P = some R → reduced ec.p R = true)
      ∧ (∀ k R, ec.scalar_mul P k = some R → reduced ec.p R = true) := by
  refine ⟨fun R h => add_reduced ec hp hP hQ h,
    fun R h => doubling_reduced ec hp h, fun k R h => ?_⟩
  unfold EllipticCurve.scalar_mul at h
  split at h
  · exact absurd h (by simp)
  · exact scalar_mul_loop_reduced ec hp k hP _ hP h

/-- Witness for C10 on the toy curve with points (5, 1) and (6, 3). -/
theorem returned_points_reduced_witness :
    (1 ≤ toyCurve.p
        ∧ reduced toyCurve.p (Point.coordinate 5 1) = true
        ∧ reduced toyCurve.p (Point.coordinate 6 3) = true)
      ∧ ((∀ R, toyCurve.add (Point.coordinate 5 1) (Point.coordinate 6 3) = some R →
            reduced toyCurve.p R = true)
          ∧ (∀ R, toyCurve.doubling (Point.coordinate 5 1) = some R →
              reduced toyCurve.p R = true)
          ∧ (∀ k R, toyCurve.scalar_mul (Point.coordinate 5 1) k = some R →
              reduced toyCurve.p R = true)) :=
  ⟨⟨by decide, by decide, by decide⟩,
    returned_points_reduced toyCurve (by decide) _ _ (by decide) (by decide)⟩

end Ecc


namespace Ecc

section Closure

open WeierstrassCurve.Affine

/-- The short Weierstrass curve over ZMod p corresponding to an embedded
curve record: a1 = a2 = a3 = 0, a4 = a, a6 = b. -/
def curveW (ec : EllipticCurve) : WeierstrassCurve.Affine (ZMod ec.p) :=
  { a₁ := 0, a₂ := 0, a₃ := 0, a₄ := (ec.a : ZMod ec.p), a₆ := (ec.b : ZMod ec.p) }

lemma cast_ff_divide {p : Nat} (c d : Nat) :
    ((FiniteField.divide c d p : Nat) : ZMod p)
      = (c : ZMod p) * (d : ZMod p) ^ (p - 2) := by
  unfold FiniteField.divide
  rw [cast_ff_mult, cast_ff_inv_mult]

lemma is_on_curve_iff_equation (ec : EllipticCurve) (x y : Nat) :
    ec.is_on_curve (Point.coordinate x y) = true ↔
      (curveW ec).Equation (x : ZMod ec.p) (y : ZMod ec.p) := by
  simp only [EllipticCurve.is_on_curve, FiniteField.add, FiniteField.mult, beq_iff_eq]
  rw [WeierstrassCurve.Affine.equation_iff, ← ZMod.natCast_eq_natCast_iff']
  push_cast [ZMod.natCast_mod]
  simp only [curveW]
  constructor <;> intro h <;> [skip; skip] <;> linear_combination h

lemma natCast_inj_of_lt {p a b : Nat} (_hp : 0 < p) (ha : a < p) (hb : b < p)
    (h : (a : ZMod p) = b) : a = b := by
  haveI : NeZero p := ⟨by omega⟩
  have hv := congrArg ZMod.val h
  rwa [ZMod.val_natCast_of_lt ha, ZMod.val_natCast_of_lt hb] at hv

lemma natCast_ne_of_lt {p a b : Nat} (hp : 0 < p) (ha : a < p) (hb : b < p)
    (h : a ≠ b) : (a : ZMod p) ≠ (b : ZMod p) :=
  fun hc => h (natCast_inj_of_lt hp ha hb hc)

lemma compute_x3_y3_cast (ec : EllipticCurve) (hp : 0 < ec.p) (s x1 y1 x2 : Nat)
    (hx1 : x1 ≤ ec.p) (hx2 : x2 ≤ ec.p) (hy1 : y1 ≤ ec.p) :
    ∃ x3 y3 : Nat, ec.compute_x3_y3 s x1 y1 x2 = Point.coordinate x3 y3
      ∧ (x3 : ZMod ec.p) = (s : ZMod ec.p) ^ 2 - x1 - x2
      ∧ (y3 : ZMod ec.p)
          = (s : ZMod ec.p) * ((x1 : ZMod ec.p) - ((s : ZMod ec.p) ^ 2 - x1 - x2))
              - y1 := by
  refine ⟨_, _, rfl, ?_, ?_⟩
  · show ((FiniteField.subtract (FiniteField.subtract (s ^ 2 % ec.p) x1 ec.p) x2 ec.p
        : Nat) : ZMod ec.p) = _
    rw [cast_ff_subtract _ _ hx2, cast_ff_subtract _ _ hx1, cast_pow_mod]
  · have hx3le : FiniteField.subtract (FiniteField.subtract (s ^ 2 % ec.p) x1 ec.p) x2 ec.p
        ≤ ec.p := le_of_lt (Nat.mod_lt _ hp)
    show ((FiniteField.subtract
        (FiniteField.mult s
          (FiniteField.subtract x1
            (FiniteField.subtract (FiniteField.subtract (s ^ 2 % ec.p) x1 ec.p) x2 ec.p)
            ec.p)
          ec.p)
        y1 ec.p : Nat) : ZMod ec.p) = _
    rw [cast_ff_subtract _ _ hy1, cast_ff_mult, cast_ff_subtract _ _ hx3le,
      cast_ff_subtract _ _ hx2, cast_ff_subtract _ _ hx1, cast_pow_mod]

lemma compute_x3_y3_on_curve (ec : EllipticCurve) (hprime : ec.p.Prime)
    {s x1 y1 x2 : Nat} {L : ZMod ec.p}
    (hx1 : x1 ≤ ec.p) (hx2 : x2 ≤ ec.p) (hy1 : y1 ≤ ec.p)
    (hs : (s : ZMod ec.p) = L)
    (heq : (curveW ec).Equation ((curveW ec).addX x1 x2 L)
      ((curveW ec).addY x1 x2 y1 L)) :
    ec.is_on_curve (ec.compute_x3_y3 s x1 y1 x2) = true := by
  obtain ⟨x3, y3, hpt, hx3, hy3⟩ :=
    compute_x3_y3_cast ec hprime.pos s x1 y1 x2 hx1 hx2 hy1
  rw [hpt, is_on_curve_iff_equation]
  have haddX : (curveW ec).addX (x1 : ZMod ec.p) x2 L = (x3 : ZMod ec.p) := by
    rw [hx3, ← hs]
    simp only [curveW, WeierstrassCurve.Affine.addX]
    ring
  have haddY : (curveW ec).addY (x1 : ZMod ec.p) x2 y1 L = (y3 : ZMod ec.p) := by
    rw [hy3, ← hs]
    simp only [curveW, WeierstrassCurve.Affine.addY, WeierstrassCurve.Affine.negAddY,
      WeierstrassCurve.Affine.negY, WeierstrassCurve.Affine.addX]
    ring
  rwa [haddX, haddY] at heq

lemma add_identity_left (ec : EllipticCurve) {d : Point} (hne : Point.identity ≠ d)
    (hd : ec.is_on_curve d = true) : ec.add Point.identity d = some d := by
  unfold EllipticCurve.add
  rw [if_neg hne, hd]
  cases d with
  | identity => exact absurd rfl hne
  | coordinate x2 y2 => rfl

lemma add_identity_right (ec : EllipticCurve) {x1 y1 : Nat}
    (hc : ec.is_on_curve (Point.coordinate x1 y1) = true) :
    ec.add (Point.coordinate x1 y1) Point.identity
      = some (Point.coordinate x1 y1) := by
  unfold EllipticCurve.add
  rw [if_neg (fun h => Point.noConfusion h), hc]
  rfl

lemma add_coordinate (ec : EllipticCurve) {x1 y1 x2 y2 : Nat}
    (hne : Point.coordinate x1 y1 ≠ Point.coordinate x2 y2)
    (hc : ec.is_on_curve (Point.coordinate x1 y1) = true)
    (hd : ec.is_on_curve (Point.coordinate x2 y2) = true) :
    ec.add (Point.coordinate x1 y1) (Point.coordinate x2 y2) =
      if x1 = x2 ∧ FiniteField.add y1 y2 ec.p = 0 then some Point.identity
      else
        some (ec.compute_x3_y3
          (FiniteField.divide (FiniteField.subtract y2 y1 ec.p)
            (FiniteField.subtract x2 x1 ec.p) ec.p) x1 y1 x2) := by
  unfold EllipticCurve.add
  rw [if_neg hne, hc, hd]
  rfl

lemma doubling_coordinate (ec : EllipticCurve) {x1 y1 : Nat}
    (hc : ec.is_on_curve (Point.coordinate x1 y1) = true) :
    ec.doubling (Point.coordinate x1 y1) =
      if y1 = 0 then some Point.identity
      else
        some (ec.compute_x3_y3
          (FiniteField.divide
            (FiniteField.add (FiniteField.mult 3 (x1 ^ 2 % ec.p) ec.p) ec.a ec.p)
            (FiniteField.mult 2 y1 ec.p) ec.p) x1 y1 x1) := by
  unfold EllipticCurve.doubling
  rw [hc]
  rfl

lemma two_mul_ne_zero {ec : EllipticCurve} (hprime : ec.p.Prime) (hodd : ec.p ≠ 2)
    {y1 : Nat} (hy1lt : y1 < ec.p) (hy10 : y1 ≠ 0) :
    (2 : ZMod ec.p) * (y1 : Nat) ≠ 0 := by
  haveI := Fact.mk hprime
  apply mul_ne_zero
  · have h2 : ((2 : Nat) : ZMod ec.p) ≠ 0 := by
      rw [Ne, ZMod.natCast_zmod_eq_zero_iff_dvd]
      intro hdvd
      have hle := Nat.le_of_dvd (by norm_num) hdvd
      have h2le := hprime.two_le
      exact hodd (by omega)
    exact_mod_cast h2
  · have h0 := natCast_ne_of_lt hprime.pos hy1lt hprime.pos hy10
    simpa using h0

/-- C7 amended: on every curve whose modulus p is an odd prime, for
reduced on-curve points P and Q with P distinct from Q, both add(P, Q)
and doubling(P) succeed and return a point on the curve or Infinity. -/
theorem add_doubling_closed (ec : EllipticCurve) (hprime : Nat.Prime ec.p)
    (hodd : ec.p ≠ 2) (P Q : Point)
    (hPred : reduced ec.p P = true) (hQred : reduced ec.p Q = true)
    (hPon : ec.is_on_curve P = true) (hQon : ec.is_on_curve Q = true)
    (hne : P ≠ Q) :
    (∃ R, ec.add P Q = some R ∧ ec.is_on_curve R = true)
      ∧ (∃ R, ec.doubling P = some R ∧ ec.is_on_curve R = true) := by
  haveI := Fact.mk hprime
  constructor
  · -- closure of add
    cases P with
    | identity => exact ⟨Q, add_identity_left ec hne hQon, hQon⟩
    | coordinate x1 y1 =>
        cases Q with
        | identity =>
            exact ⟨Point.coordinate x1 y1, add_identity_right ec hPon, hPon⟩
        | coordinate x2 y2 =>
            rw [add_coordinate ec hne hPon hQon]
            simp only [reduced, Bool.and_eq_true, decide_eq_true_eq] at hPred hQred
            obtain ⟨hx1lt, hy1lt⟩ := hPred
            obtain ⟨hx2lt, hy2lt⟩ := hQred
            have e1 := (is_on_curve_iff_equation ec x1 y1).mp hPon
            have e2 := (is_on_curve_iff_equation ec x2 y2).mp hQon
            by_cases hx : x1 = x2
            · -- same x-coordinate: distinct reduced points are reflections
              subst hx
              have hy : y1 ≠ y2 := fun h => hne (by rw [h])
              have hyF : (y1 : ZMod ec.p) ≠ (y2 : ZMod ec.p) :=
                natCast_ne_of_lt hprime.pos hy1lt hy2lt hy
              have hsq : ((y1 : ZMod ec.p) - y2) * ((y1 : ZMod ec.p) + y2) = 0 := by
                have e1' := (WeierstrassCurve.Affine.equation_iff _ _ _).mp e1
                have e2' := (WeierstrassCurve.Affine.equation_iff _ _ _).mp e2
                dsimp only [curveW] at e1' e2'
                linear_combination e1' - e2'
              have hsum : (y1 : ZMod ec.p) + (y2 : ZMod ec.p) = 0 := by
                rcases mul_eq_zero.mp hsq with h | h
                · exact absurd (sub_eq_zero.mp h) hyF
                · exact h
              have hmod : FiniteField.add y1 y2 ec.p = 0 := by
                have hcast : ((y1 + y2 : Nat) : ZMod ec.p) = 0 := by
                  push_cast
                  exact hsum
                rw [ZMod.natCast_zmod_eq_zero_iff_dvd] at hcast
                obtain ⟨k, hk⟩ := hcast
                unfold FiniteField.add
                rw [hk]
                exact Nat.mul_mod_right ec.p k
              rw [if_pos ⟨rfl, hmod⟩]
              exact ⟨Point.identity, rfl, rfl⟩
            · -- distinct x-coordinates: the chord construction
              have hxF : (x1 : ZMod ec.p) ≠ (x2 : ZMod ec.p) :=
                natCast_ne_of_lt hprime.pos hx1lt hx2lt hx
              have hden : (x2 : ZMod ec.p) - (x1 : ZMod ec.p) ≠ 0 :=
                sub_ne_zero.mpr (Ne.symm hxF)
              rw [if_neg (fun h => hx h.1)]
              refine ⟨_, rfl, ?_⟩
              apply compute_x3_y3_on_curve ec hprime (le_of_lt hx1lt)
                (le_of_lt hx2lt) (le_of_lt hy1lt)
                (L := (curveW ec).slope x1 x2 y1 y2)
              · rw [cast_ff_divide, cast_ff_subtract _ _ (le_of_lt hy1lt),
                  cast_ff_subtract _ _ (le_of_lt hx1lt),
                  pow_card_sub_two hprime hden,
                  WeierstrassCurve.Affine.slope_of_X_ne hxF]
                rw [div_eq_mul_inv, ← neg_sub (y2 : ZMod ec.p) (y1 : ZMod ec.p),
                  ← neg_sub (x2 : ZMod ec.p) (x1 : ZMod ec.p), inv_neg,
                  neg_mul_neg]
              · exact WeierstrassCurve.Affine.equation_add e1 e2
                  (fun h => absurd h hxF)
  · -- closure of doubling
    cases P with
    | identity => exact ⟨Point.identity, rfl, rfl⟩
    | coordinate x1 y1 =>
        rw [doubling_coordinate ec hPon]
        simp only [reduced, Bool.and_eq_true, decide_eq_true_eq] at hPred
        obtain ⟨hx1lt, hy1lt⟩ := hPred
        have e1 := (is_on_curve_iff_equation ec x1 y1).mp hPon
        by_cases hy0 : y1 = 0
        · rw [if_pos hy0]
          exact ⟨Point.identity, rfl, rfl⟩
        · rw [if_neg hy0]
          have h2y : (2 : ZMod ec.p) * (y1 : Nat) ≠ 0 :=
            two_mul_ne_zero hprime hodd hy1lt hy0
          have hyneg : (y1 : ZMod ec.p) ≠ (curveW ec).negY (x1 : ZMod ec.p) y1 := by
            intro hcontra
            apply h2y
            dsimp only [curveW, WeierstrassCurve.Affine.negY] at hcontra
            linear_combination hcontra
          refine ⟨_, rfl, ?_⟩
          apply compute_x3_y3_on_curve ec hprime (le_of_lt hx1lt)
            (le_of_lt hx1lt) (le_of_lt hy1lt)
            (L := (curveW ec).slope x1 x1 y1 y1)
          · have hdenz : ((FiniteField.mult 2 y1 ec.p : Nat) : ZMod ec.p) ≠ 0 := by
              rw [cast_ff_mult]
              push_cast
              exact h2y
            have h2F : (2 : ZMod ec.p) ≠ 0 := left_ne_zero_of_mul h2y
            have hy1F : ((y1 : Nat) : ZMod ec.p) ≠ 0 := right_ne_zero_of_mul h2y
            rw [cast_ff_divide, cast_ff_add, cast_ff_mult, cast_pow_mod,
              pow_card_sub_two hprime hdenz, cast_ff_mult,
              WeierstrassCurve.Affine.slope_of_Y_ne rfl hyneg]
            have hDne : (y1 : ZMod ec.p)
                - (curveW ec).negY (x1 : ZMod ec.p) (y1 : ZMod ec.p) ≠ 0 := by
              dsimp only [curveW, WeierstrassCurve.Affine.negY]
              intro hc
              apply h2y
              linear_combination hc
            rw [eq_div_iff hDne]
            have hcancel : (2 * (y1 : ZMod ec.p)) * (2 * (y1 : ZMod ec.p))⁻¹ = 1 :=
              mul_inv_cancel₀ h2y
            dsimp only [curveW, WeierstrassCurve.Affine.negY]
            push_cast
            linear_combination
              ((3 : ZMod ec.p) * (x1 : ZMod ec.p) ^ 2 + (ec.a : ZMod ec.p)) * hcancel
          · exact WeierstrassCurve.Affine.equation_add e1 e1 (fun _ => hyneg)

/-- Witness for the amended C7 on the toy curve with points (5, 1) and
(6, 3). -/
theorem add_doubling_closed_witness :
    (Nat.Prime toyCurve.p ∧ toyCurve.p ≠ 2
        ∧ reduced toyCurve.p (Point.coordinate 5 1) = true
        ∧ reduced toyCurve.p (Point.coordinate 6 3) = true
        ∧ toyCurve.is_on_curve (Point.coordinate 5 1) = true
        ∧ toyCurve.is_on_curve (Point.coordinate 6 3) = true
        ∧ Point.coordinate 5 1 ≠ Point.coordinate 6 3)
      ∧ ((∃ R, toyCurve.add (Point.coordinate 5 1) (Point.coordinate 6 3) = some R
            ∧ toyCurve.is_on_curve R = true)
          ∧ (∃ R, toyCurve.doubling (Point.coordinate 5 1) = some R
              ∧ toyCurve.is_on_curve R = true)) :=
  ⟨⟨by decide, by decide, by decide, by decide, by decide, by decide, by decide⟩,
    add_doubling_closed toyCurve (by decide) (by decide) _ _ (by decide) (by decide)
      (by decide) (by decide) (by decide)⟩

end Closure

end Ecc
